import Mathlib

/-!
Verification of the archive bundler (`scripts/bundle.py`) and of the
chiseling-recipe generator (`scripts/generate.py`).

Strings are modelled as lists of characters, paths below the bundled root as
lists of path segments, and the filesystem tree walked by `os.walk` as a
finitely branching tree of named directories and files.  The run is assumed to
happen on a POSIX host, so `os.sep = '/'` and `os.path.normcase` is the
identity (which makes `fnmatch.fnmatch` case sensitive).
-/

namespace Rechiseled

/-- Character strings of the scripts, modelled as lists of characters. -/
abbrev Str := List Char

/-- The path separator `os.sep` on the POSIX host. -/
def SEP : Char := '/'

/-! ### `fnmatch` — shell-glob matching as implemented by Python's `fnmatch`

`fnmatch.translate` turns a pattern into a regular expression: `*` matches any
character sequence, `?` any single character, and `[...]` a character set with
optional `!` negation and `lo-hi` ranges.  An unterminated `[` (no closing `]`
after skipping an optional leading `!` and an optional literal `]`) is an
ordinary character.
-/

/-- Index of the first `]` in a character list, if any. -/
def findCloseIdx : Str → Option Nat
  | [] => none
  | c :: rest => if c = ']' then some 0 else (findCloseIdx rest).map (· + 1)

/-- Given the characters following a `[`, split off the bracket set's content
and the remainder of the pattern after the closing `]`.  Following
`fnmatch.translate`, an optional leading `!` and then an optional first `]`
belong to the content, and if no closing `]` remains the bracket is
unterminated (`none`). -/
def splitBracket (p : Str) : Option (Str × Str) :=
  let skip1 : Nat := match p with | '!' :: _ => 1 | _ => 0
  let q := p.drop skip1
  let skip2 : Nat := match q with | ']' :: _ => 1 | _ => 0
  match findCloseIdx (q.drop skip2) with
  | none => none
  | some k => some (p.take (skip1 + skip2 + k), p.drop (skip1 + skip2 + k + 1))

/-- Membership of a character in a bracket set's content: `a-b` (with `-` not
in final position) is an inclusive code-point range, every other character is a
literal.  An empty content matches nothing. -/
def inSet (c : Char) : Str → Bool
  | [] => false
  | a :: '-' :: b :: rest => (a ≤ c && c ≤ b) || inSet c rest
  | a :: rest => (a == c) || inSet c rest

/-- Match one character against a bracket set, honouring `!` negation. -/
def bracketMatch (stuff : Str) (c : Char) : Bool :=
  match stuff with
  | '!' :: neg => !(inSet c neg)
  | _ => inSet c stuff

/-- Shell-glob matching with explicit fuel (the fuel bounds the length of the
pattern, so the recursion is structural and computable by the kernel).
`*` matches any character sequence — `re` semantics of the `(?s:.*)` produced
by `fnmatch.translate` — rendered by trying every suffix of the string. -/
def globN : Nat → Str → Str → Bool
  | _, [], s => s.isEmpty
  | 0, _ :: _, _ => false
  | n + 1, c :: p, s =>
    if c = '*' then
      (s.tails).any (fun t => globN n p t)
    else if c = '?' then
      match s with
      | [] => false
      | _ :: s' => globN n p s'
    else if c = '[' then
      match splitBracket p with
      | none =>
        match s with
        | [] => false
        | d :: s' => (d == '[') && globN n p s'
      | some (stuff, rest) =>
        match s with
        | [] => false
        | d :: s' => bracketMatch stuff d && globN n rest s'
    else
      match s with
      | [] => false
      | d :: s' => (c == d) && globN n p s'

/-- Shell-glob matching: `glob pat s` decides whether the whole string `s`
matches the pattern `pat`, with `fnmatch` semantics (`*`, `?`, `[seq]`;
the separator is not treated specially). -/
def glob (p s : Str) : Bool := globN p.length p s

/-- Python's `fnmatch.fnmatch(name, pat)` on a POSIX host. -/
def fnmatch (name pat : Str) : Bool := glob pat name

/-! ### Paths

A path strictly below the bundled root is modelled by the list of its path
segments relative to the root.  `joinPath` is `os.sep.join` (and at the same
time the result of `os.path.relpath` for such a path), `splitSep` is
`str.split(os.sep)`, and `pathBasename` is `os.path.basename` on a path
string. -/

/-- Python `os.sep.join`: interleave the separator between the segments. -/
def joinPath : List Str → Str
  | [] => []
  | [s] => s
  | s :: r :: rest => s ++ SEP :: joinPath (r :: rest)

/-- Python `str.split(os.sep)`: split at every separator; never empty. -/
def splitSep : Str → List Str
  | [] => [[]]
  | c :: rest =>
    if c = SEP then [] :: splitSep rest
    else
      match splitSep rest with
      | [] => [[c]]
      | q :: qs => (c :: q) :: qs

/-- Python `os.path.basename` of a path string: everything after the last
separator. -/
def pathBasename (s : Str) : Str := (splitSep s).getLastD []

/-! ### Pattern loader (`load_packignore_patterns`)

The ignore-file is modelled as `Option (List Str)`: `none` when the file does
not exist, `some lines` for its list of lines otherwise. -/

/-- Characters stripped by Python's `str.strip()` (ASCII whitespace). -/
def isPySpace (c : Char) : Bool :=
  c == ' ' || c == '\t' || c == '\n' || c == '\r' || c == '\x0b' || c == '\x0c'

/-- Python `str.strip()`: remove leading and trailing whitespace. -/
def strip (s : Str) : Str :=
  ((s.dropWhile isPySpace).reverse.dropWhile isPySpace).reverse

/-- Python `line.startswith('#')`. -/
def startsWithHash : Str → Bool
  | '#' :: _ => true
  | _ => false

/-- The accumulator loop of `load_packignore_patterns`: strip each line and
append it when it is non-empty and not a comment. -/
def loadLoop : List Str → List Str → List Str
  | [], acc => acc
  | line :: rest, acc =>
    let l := strip line
    if !l.isEmpty && !startsWithHash l then loadLoop rest (acc ++ [l])
    else loadLoop rest acc

/-- Loader `load_packignore_patterns`: empty when the ignore-file is missing,
otherwise the stripped non-empty non-comment lines in file order. -/
def load_packignore_patterns : Option (List Str) → List Str
  | none => []
  | some lines => loadLoop lines []

/-! ### Ignore matcher (`should_ignore`)

The candidate path is passed as its list of segments relative to the root
(`relSegs`); the relative path string and the basename are derived from it the
way `os.path.relpath` and `os.path.basename` produce them for a path strictly
below the root. -/

/-- Python `pattern.endswith('/')`. -/
def endsWithSep (pat : Str) : Bool := pat.getLast? == some SEP

/-- Python `pattern.rstrip('/')`: drop every trailing separator. -/
def rstripSep (pat : Str) : Str := (pat.reverse.dropWhile (· == SEP)).reverse

/-- Matcher `should_ignore(path, patterns, base_path)` for a path strictly below
`base_path` whose relative segments are `relSegs`: first every pattern is
tried against the full relative path (directory patterns also against the
path with a trailing separator and against the pattern with its trailing
separators stripped, other patterns also against the basename), then every
pattern is tried against every separator-joined partial path. -/
def should_ignore (relSegs : List Str) (patterns : List Str) : Bool :=
  let relative_path := joinPath relSegs
  let base_name := relSegs.getLastD []
  let loop1 := patterns.any fun pattern =>
    if endsWithSep pattern then
      fnmatch (relative_path ++ [SEP]) pattern ||
        fnmatch relative_path (rstripSep pattern)
    else
      fnmatch relative_path pattern || fnmatch base_name pattern
  let parts := splitSep relative_path
  let loop2 := (List.range parts.length).any fun i =>
    let sub_path := joinPath (parts.take (i + 1))
    patterns.any fun pattern =>
      if endsWithSep pattern then fnmatch (sub_path ++ [SEP]) pattern
      else fnmatch sub_path pattern
  loop1 || loop2

/-! ### Filesystem tree and the bundler (`bundle_files`) -/

mutual
/-- A directory of the walked filesystem: named subdirectories and the names
of the plain files it contains, in the order `os.walk` reports them. -/
inductive FTree where
  | node (dirs : DirList) (files : List Str)

/-- The ordered list of named subdirectories of a directory. -/
inductive DirList where
  | nil
  | cons (name : Str) (sub : FTree) (rest : DirList)
end

mutual
/-- The file-writing part of `bundle_files`: walk the tree top-down from the
relative position `pfx`, write each file that is neither ignored nor named
like the output archive under its relative path, and recurse into the
subdirectories that survive the pruning. -/
def walkTree (pats : List Str) (out : Str) (pfx : List Str) : FTree → List Str
  | .node dirs files =>
    (files.filter fun f =>
        !should_ignore (pfx ++ [f]) pats && !(f == out)).map
      (fun f => joinPath (pfx ++ [f])) ++
    walkDirs pats out pfx dirs

/-- Walk the subdirectory list: a subdirectory matched by `should_ignore` is
pruned (its whole subtree is skipped), the others are entered. -/
def walkDirs (pats : List Str) (out : Str) (pfx : List Str) : DirList → List Str
  | .nil => []
  | .cons name sub rest =>
    (if should_ignore (pfx ++ [name]) pats then []
     else walkTree pats out (pfx ++ [name]) sub) ++
    walkDirs pats out pfx rest
end

/-- Bundler `bundle_files(source_dir, output_zip, packignore_path)`: load the
patterns, compute the output archive's basename, and collect the relative
paths (archive keys) of every file written into the archive, in write
order. -/
def bundle_files (tree : FTree) (output_zip : Str)
    (packignore : Option (List Str)) : List Str :=
  let patterns := load_packignore_patterns packignore
  let output_filename := pathBasename output_zip
  walkTree patterns output_filename [] tree

mutual
/-- The tree contains a file named `f` in the directory reached by the
segment path `ds`. -/
def hasFileT : FTree → List Str → Str → Bool
  | .node _ files, [], f => files.contains f
  | .node dirs _, d :: ds, f => hasFileD dirs d ds f

/-- Some subdirectory named `d` of the list contains the file. -/
def hasFileD : DirList → Str → List Str → Str → Bool
  | .nil, _, _, _ => false
  | .cons name sub rest, d, ds, f =>
    (name == d && hasFileT sub ds f) || hasFileD rest d ds f
end

mutual
/-- Every directory name and file name in the tree is free of the path
separator (true of every real filesystem tree). -/
def sepFreeT : FTree → Bool
  | .node dirs files => sepFreeD dirs && files.all (fun f => !f.contains SEP)

/-- Separator-freeness for a subdirectory list. -/
def sepFreeD : DirList → Bool
  | .nil => true
  | .cons name sub rest =>
    !name.contains SEP && sepFreeT sub && sepFreeD rest
end

/-! ### Generator (`scripts/generate.py`)

JSON documents are modelled by an inductive type; the two HTTP calls are
modelled by oracle inputs (the outcome of the file-list request and a map
from download URL to per-file outcome).  The observable behaviour of a run is
the list of `(filename, document)` pairs it writes. -/

/-- JSON values. -/
inductive Json where
  | str (s : Str)
  | bool (b : Bool)
  | num (n : Int)
  | arr (xs : List Json)
  | obj (fields : List (Str × Json))

/-- Dictionary lookup on a JSON object (keys are unique in parsed JSON). -/
def Json.getField : Json → Str → Option Json
  | .obj fields, k => (fields.find? fun kv => kv.1 == k).map (·.2)
  | _, _ => none

/-- Python truthiness of a JSON value (`if not content`, `if not variants`). -/
def isFalsy : Json → Bool
  | .str s => s.isEmpty
  | .bool b => !b
  | .num n => n == 0
  | .arr xs => xs.isEmpty
  | .obj fields => fields.isEmpty

/-- Python `s.replace(old, new)` with explicit fuel bounding the length of
`s`: scan left to right, replacing non-overlapping occurrences. -/
def replaceAllN : Nat → Str → Str → Str → Str
  | _, _, _, [] => []
  | 0, _, _, s => s
  | n + 1, old, new, c :: rest =>
    if old ≠ [] && old.isPrefixOf (c :: rest) then
      new ++ replaceAllN n old new ((c :: rest).drop old.length)
    else c :: replaceAllN n old new rest

/-- Python `s.replace(old, new)`. -/
def replaceAll (old new s : Str) : Str := replaceAllN s.length old new s

/-- Python `sub in s`: `sub` occurs as a contiguous substring of `s`. -/
def containsSub (s sub : Str) : Bool :=
  sub.isPrefixOf s ||
    match s with
    | [] => false
    | _ :: t => containsSub t sub

/-- Renamer `extract_base_name`: remove every `.json` occurrence, then replace every
`_frame` occurrence by `_planks`, keep names ending `_log` as they are, and
append `_planks` to anything else not already ending in `_planks`. -/
def extract_base_name (filename : Str) : Str :=
  let base_name := replaceAll ".json".data [] filename
  if containsSub base_name "_frame".data then
    replaceAll "_frame".data "_planks".data base_name
  else if "_log".data.isSuffixOf base_name then
    base_name
  else
    if "_planks".data.isSuffixOf base_name then base_name
    else base_name ++ "_planks".data

/-- Builder `create_chiseling_recipe`: the fixed-shape chiseling document with one
`item` entry per variant, in input order. -/
def create_chiseling_recipe (variants : List Json) : Json :=
  .obj
    [("type".data, .str "rechiseled:chiseling".data),
     ("overwrite".data, .bool false),
     ("entries".data, .arr (variants.map fun variant => .obj [("item".data, variant)]))]

/-- Outcome of one HTTP download: a parsed JSON body, a
`requests.RequestException`, or a `json.JSONDecodeError`. -/
inductive FetchResult where
  | ok (j : Json)
  | requestError
  | jsonDecodeError

/-- Downloader `download_file_content`: the parsed body on success, `None` when the
request raised a `RequestException` or the body failed to parse (both are
caught inside the function). -/
def download_file_content : FetchResult → Option Json
  | .ok j => some j
  | .requestError => none
  | .jsonDecodeError => none

/-- A file descriptor from the GitHub listing API. -/
structure FileInfo where
  name : Str
  ftype : Str
  download_url : Str

/-- Lister `get_github_files`: on a request failure the exception is caught and the
empty list is returned; otherwise the listing is filtered down to the `.json`
plain files. -/
def get_github_files : Option (List FileInfo) → List FileInfo
  | none => []
  | some files =>
    files.filter fun f => ".json".data.isSuffixOf f.name && f.ftype == "file".data

/-- The `variants` field of a downloaded document, defaulting to the empty
list (`content.get('variants', [])`); upstream documents always carry an
array there, so a non-array value is outside the model. -/
def getVariants (content : Json) : List Json :=
  match Json.getField content "variants".data with
  | some (Json.arr xs) => xs
  | _ => []

/-- Processor `process_chisel_file`: the writes performed for one listed file, given
the outcome of its download.  A failed download, a falsy body or an empty
`variants` list produce no write; otherwise one recipe file is written under
the transformed name. -/
def process_chisel_file (fi : FileInfo) (fetched : FetchResult) :
    List (Str × Json) :=
  match download_file_content fetched with
  | none => []
  | some content =>
    if isFalsy content then []
    else
      let variants := getVariants content
      if variants.isEmpty then []
      else
        [(extract_base_name fi.name ++ ".json".data,
          create_chiseling_recipe variants)]

/-- The generator's `main`: the writes of a whole run, given the outcome of
the listing request and of each per-file download (keyed by download URL).
When the listing fails or is empty the run stops before processing any
file. -/
def generator_main (listing : Option (List FileInfo))
    (fetch : Str → FetchResult) : List (Str × Json) :=
  let files := get_github_files listing
  if files.isEmpty then []
  else files.flatMap fun fi => process_chisel_file fi (fetch fi.download_url)

/-! ### Auxiliary notions used by the statements -/

/-- A character that is neither a glob metacharacter nor the separator; a
name made of such characters is matched literally by `fnmatch`. -/
def plainChar (c : Char) : Bool :=
  !(c == '*' || c == '?' || c == '[' || c == SEP)

/-- A literal name: non-empty and made of plain characters only. -/
def plainName (s : Str) : Prop := s ≠ [] ∧ ∀ c ∈ s, plainChar c = true

/-- Conditions under which the walk starting at the relative position `pfx`
emits the archive entry `e` for a file `f` in the subdirectory chain `ds`:
the entry key is the joined relative path, no directory along the chain is
ignored, the file itself is not ignored, and the file is not named like the
output archive. -/
def EntryWitness (pats : List Str) (out : Str) (pfx : List Str)
    (ds : List Str) (f : Str) (e : Str) : Prop :=
  e = joinPath (pfx ++ ds ++ [f]) ∧
  (∀ i, i < ds.length → should_ignore (pfx ++ ds.take (i + 1)) pats = false) ∧
  should_ignore (pfx ++ ds ++ [f]) pats = false ∧
  f ≠ out

/-- Modelled from the amended claim C7: every occurrence of `_frame` is
renamed to `_planks`; a name containing no `_frame` keeps its form when it
ends in `_log` or `_planks` and gets `_planks` appended otherwise (all after
removing every `.json` occurrence). -/
def extract_base_name_amended (filename : Str) : Str :=
  let b := replaceAll ".json".data [] filename
  if containsSub b "_frame".data then replaceAll "_frame".data "_planks".data b
  else if !("_log".data.isSuffixOf b) && !("_planks".data.isSuffixOf b) then
    b ++ "_planks".data
  else b

/-! ### Lemmas about glob matching -/

theorem glob_nil_pat (s : Str) : glob [] s = s.isEmpty := rfl

theorem glob_cons_lit {c : Char} (h1 : c ≠ '*') (h2 : c ≠ '?') (h3 : c ≠ '[')
    (p : Str) (d : Char) (s : Str) :
    glob (c :: p) (d :: s) = ((c == d) && glob p s) := by
  show globN (p.length + 1) (c :: p) (d :: s) = ((c == d) && glob p s)
  simp only [globN, if_neg h1, if_neg h2, if_neg h3]
  rfl

theorem glob_append_lit {p : Str} (hp : ∀ c ∈ p, plainChar c = true)
    (q s : Str) : glob (p ++ q) (p ++ s) = glob q s := by
  induction p with
  | nil => rfl
  | cons c t ih =>
    have hc := hp c (List.mem_cons_self c t)
    have h1 : c ≠ '*' := by
      intro h; subst h; simp [plainChar] at hc
    have h2 : c ≠ '?' := by
      intro h; subst h; simp [plainChar] at hc
    have h3 : c ≠ '[' := by
      intro h; subst h; simp [plainChar] at hc
    show glob (c :: (t ++ q)) (c :: (t ++ s)) = glob q s
    rw [glob_cons_lit h1 h2 h3, ih (fun c hc => hp c (List.mem_cons_of_mem _ hc))]
    simp

theorem glob_sep_self : glob [SEP] [SEP] = true := by decide

/-- A literal name followed by the separator matches itself as a pattern. -/
theorem fnmatch_plain_sep_self {p : Str} (hp : ∀ c ∈ p, plainChar c = true) :
    fnmatch (p ++ [SEP]) (p ++ [SEP]) = true := by
  show glob (p ++ [SEP]) (p ++ [SEP]) = true
  rw [glob_append_lit hp]
  exact glob_sep_self

/-! ### Lemmas about paths -/

theorem splitSep_sepFree {x : Str} (hx : SEP ∉ x) : splitSep x = [x] := by
  induction x with
  | nil => rfl
  | cons c t ih =>
    have hc : ¬(c = SEP) := fun h => hx (h ▸ List.mem_cons_self c t)
    have ht : SEP ∉ t := fun h => hx (List.mem_cons_of_mem c h)
    simp only [splitSep, if_neg hc, ih ht]

theorem splitSep_append {x : Str} (hx : SEP ∉ x) (t : Str) :
    splitSep (x ++ SEP :: t) = x :: splitSep t := by
  induction x with
  | nil => simp [splitSep]
  | cons c y ih =>
    have hc : ¬(c = SEP) := fun h => hx (h ▸ List.mem_cons_self c y)
    have hy : SEP ∉ y := fun h => hx (List.mem_cons_of_mem c h)
    simp only [List.cons_append, splitSep, if_neg hc, List.append_eq, ih hy]

theorem splitSep_joinPath :
    ∀ {l : List Str}, l ≠ [] → (∀ x ∈ l, SEP ∉ x) →
      splitSep (joinPath l) = l
  | [], h, _ => absurd rfl h
  | [x], _, hx => by
    simp only [joinPath]
    exact splitSep_sepFree (hx x (List.mem_singleton.mpr rfl))
  | x :: y :: r, _, hx => by
    have hxs : SEP ∉ x := hx x (List.mem_cons_self x _)
    simp only [joinPath, splitSep_append hxs]
    rw [splitSep_joinPath (List.cons_ne_nil y r)
      (fun z hz => hx z (List.mem_cons_of_mem x hz))]

theorem joinPath_inj {l1 l2 : List Str} (h1 : l1 ≠ []) (h2 : l2 ≠ [])
    (hx1 : ∀ x ∈ l1, SEP ∉ x) (hx2 : ∀ x ∈ l2, SEP ∉ x)
    (h : joinPath l1 = joinPath l2) : l1 = l2 := by
  have e1 := splitSep_joinPath h1 hx1
  have e2 := splitSep_joinPath h2 hx2
  rw [← e1, ← e2, h]

theorem sep_mem_joinPath (x y : Str) (r : List Str) :
    SEP ∈ joinPath (x :: y :: r) := by
  simp [joinPath]

theorem splitSep_ne_nil (s : Str) : splitSep s ≠ [] := by
  induction s with
  | nil => simp [splitSep]
  | cons c t ih =>
    simp only [splitSep]
    by_cases hc : c = SEP
    · simp [hc]
    · rw [if_neg hc]
      cases hs : splitSep t with
      | nil => simp
      | cons q qs => simp

theorem splitSep_sep_not_mem : ∀ (s : Str), ∀ x ∈ splitSep s, SEP ∉ x := by
  intro s
  induction s with
  | nil =>
    intro x hx
    simp only [splitSep, List.mem_singleton] at hx
    simp [hx]
  | cons c t ih =>
    intro x hx
    simp only [splitSep] at hx
    by_cases hc : c = SEP
    · rw [if_pos hc] at hx
      rcases List.mem_cons.mp hx with h | h
      · simp [h]
      · exact ih x h
    · rw [if_neg hc] at hx
      cases hs : splitSep t with
      | nil => exact absurd hs (splitSep_ne_nil t)
      | cons q qs =>
        rw [hs] at hx
        rcases List.mem_cons.mp hx with h | h
        · subst h
          intro hmem
          rcases List.mem_cons.mp hmem with h' | h'
          · exact hc h'.symm
          · exact ih q (hs ▸ List.mem_cons_self q qs) h'
        · exact ih x (hs ▸ List.mem_cons_of_mem q h)

theorem getLastD_mem {α : Type} : ∀ {l : List α}, l ≠ [] → ∀ (d : α), l.getLastD d ∈ l
  | [], h, _ => absurd rfl h
  | [a], _, d => by simp
  | a :: b :: r, _, d => by
    have : (a :: b :: r).getLastD d = (b :: r).getLastD a := rfl
    rw [this]
    exact List.mem_cons_of_mem a (getLastD_mem (List.cons_ne_nil b r) a)

theorem sep_not_mem_pathBasename (s : Str) : SEP ∉ pathBasename s :=
  splitSep_sep_not_mem s _ (getLastD_mem (splitSep_ne_nil s) [])

/-! ### Lemmas about the ignore matcher -/

/-- With no patterns nothing is ignored. -/
theorem should_ignore_nil_pats (segs : List Str) :
    should_ignore segs [] = false := by
  simp [should_ignore]

/-- A pattern without a trailing separator that matches the basename makes
`should_ignore` answer `true` (first loop, second disjunct of the
non-directory branch). -/
theorem should_ignore_of_basename {pats : List Str} {pat : Str}
    (hmem : pat ∈ pats) (hsep : endsWithSep pat = false)
    (segs : List Str) (f : Str) (hm : fnmatch f pat = true) :
    should_ignore (segs ++ [f]) pats = true := by
  simp only [should_ignore]
  apply Bool.or_eq_true_iff.mpr
  left
  rw [List.any_eq_true]
  refine ⟨pat, hmem, ?_⟩
  rw [if_neg (by simp [hsep])]
  apply Bool.or_eq_true_iff.mpr
  right
  have : (segs ++ [f]).getLastD [] = f := by
    rw [List.getLastD_eq_getLast?, List.getLast?_concat]
    rfl
  rw [this, hm]

/-- A pattern with a trailing separator that matches `name + '/'` makes a
direct child of the root called `name` ignored (first loop, first disjunct of
the directory branch). -/
theorem should_ignore_child_dirpat {pats : List Str} {pat : Str}
    (hmem : pat ∈ pats) (hsep : endsWithSep pat = true)
    (d : Str) (hm : fnmatch (d ++ [SEP]) pat = true) :
    should_ignore [d] pats = true := by
  simp only [should_ignore]
  apply Bool.or_eq_true_iff.mpr
  left
  rw [List.any_eq_true]
  refine ⟨pat, hmem, ?_⟩
  rw [if_pos hsep]
  apply Bool.or_eq_true_iff.mpr
  left
  show fnmatch (joinPath [d] ++ [SEP]) pat = true
  simpa [joinPath] using hm

/-- A directory pattern `p + '/'` with a literal name `p` ignores every path
whose first segment is `p` (second loop at index 0). -/
theorem should_ignore_dirpat_top {pats : List Str} {p : Str}
    (hp : ∀ c ∈ p, plainChar c = true)
    (hmem : (p ++ [SEP]) ∈ pats) {rest : List Str} (hrest : rest ≠ []) :
    should_ignore (p :: rest) pats = true := by
  have hpsep : SEP ∉ p := by
    intro hin
    have := hp SEP hin
    simp [plainChar] at this
  obtain ⟨r, rs, rfl⟩ : ∃ r rs, rest = r :: rs := by
    cases rest with
    | nil => exact absurd rfl hrest
    | cons r rs => exact ⟨r, rs, rfl⟩
  simp only [should_ignore]
  apply Bool.or_eq_true_iff.mpr
  right
  have hjoin : joinPath (p :: r :: rs) = p ++ SEP :: joinPath (r :: rs) := rfl
  rw [List.any_eq_true]
  refine ⟨0, ?_, ?_⟩
  · apply List.mem_range.mpr
    rw [hjoin, splitSep_append hpsep]
    simp
  · rw [List.any_eq_true]
    refine ⟨p ++ [SEP], hmem, ?_⟩
    have hends : endsWithSep (p ++ [SEP]) = true := by
      simp [endsWithSep, List.getLast?_concat]
    rw [if_pos hends]
    have htake : (splitSep (joinPath (p :: r :: rs))).take 1 = [p] := by
      rw [hjoin, splitSep_append hpsep]
      rfl
    rw [htake]
    show fnmatch (joinPath [p] ++ [SEP]) (p ++ [SEP]) = true
    have : joinPath [p] = p := rfl
    rw [this]
    exact fnmatch_plain_sep_self hp

/-! ### The walk: which archive entries are written -/

theorem forall_lt_succ_split (P : Nat → Prop) (n : Nat) :
    (∀ i, i < n + 1 → P i) ↔ P 0 ∧ ∀ j, j < n → P (j + 1) := by
  constructor
  · intro h
    exact ⟨h 0 (Nat.succ_pos n), fun j hj => h (j + 1) (Nat.succ_lt_succ hj)⟩
  · rintro ⟨h0, hs⟩ i hi
    cases i with
    | zero => exact h0
    | succ j => exact hs j (Nat.lt_of_succ_lt_succ hi)

theorem append_cons_eq (pfx : List Str) (name : Str) (ds : List Str) :
    pfx ++ name :: ds = (pfx ++ [name]) ++ ds := by simp

theorem EntryWitness_cons {pats : List Str} {out : Str} {pfx : List Str}
    {name : Str} {ds : List Str} {f : Str} {e : Str} :
    EntryWitness pats out pfx (name :: ds) f e ↔
      (should_ignore (pfx ++ [name]) pats = false ∧
       EntryWitness pats out (pfx ++ [name]) ds f e) := by
  unfold EntryWitness
  have hpath : pfx ++ (name :: ds) ++ [f] = (pfx ++ [name]) ++ ds ++ [f] := by
    simp
  have hsplit : (∀ i, i < (name :: ds).length →
      should_ignore (pfx ++ (name :: ds).take (i + 1)) pats = false) ↔
      (should_ignore (pfx ++ [name]) pats = false ∧
       ∀ j, j < ds.length →
         should_ignore ((pfx ++ [name]) ++ ds.take (j + 1)) pats = false) := by
    rw [List.length_cons]
    rw [forall_lt_succ_split
      (fun i => should_ignore (pfx ++ (name :: ds).take (i + 1)) pats = false)
      ds.length]
    constructor
    · rintro ⟨h0, hs⟩
      refine ⟨by simpa using h0, fun j hj => ?_⟩
      have := hs j hj
      rwa [List.take_succ_cons, append_cons_eq] at this
    · rintro ⟨h0, hs⟩
      refine ⟨by simpa using h0, fun j hj => ?_⟩
      rw [List.take_succ_cons, append_cons_eq]
      exact hs j hj
  rw [hpath, hsplit]
  tauto

mutual
theorem mem_walkTree (pats : List Str) (out : Str) (t : FTree) :
    ∀ (pfx : List Str) (e : Str),
      e ∈ walkTree pats out pfx t ↔
        ∃ ds f, hasFileT t ds f = true ∧ EntryWitness pats out pfx ds f e := by
  intro pfx e
  cases t with
  | node dirs files =>
    simp only [walkTree, List.mem_append]
    constructor
    · rintro (hfile | hdirs)
      · obtain ⟨f, hfmem, rfl⟩ := List.mem_map.mp hfile
        obtain ⟨hfin, hcond⟩ := List.mem_filter.mp hfmem
        rw [Bool.and_eq_true, Bool.not_eq_true', Bool.not_eq_true'] at hcond
        obtain ⟨hsi, hne⟩ := hcond
        refine ⟨[], f, ?_, ?_, ?_, ?_, ?_⟩
        · simp only [hasFileT]
          exact List.elem_iff.mpr hfin
        · simp
        · intro i hi
          simp at hi
        · simpa using hsi
        · intro h
          rw [h] at hne
          simp at hne
      · obtain ⟨d, ds, f, hD, hw⟩ := (mem_walkDirs pats out dirs pfx e).mp hdirs
        exact ⟨d :: ds, f, hD, hw⟩
    · rintro ⟨ds, f, hT, hw⟩
      cases ds with
      | nil =>
        left
        obtain ⟨he, _, hsi, hne⟩ := hw
        simp only [hasFileT] at hT
        apply List.mem_map.mpr
        refine ⟨f, List.mem_filter.mpr ⟨List.elem_iff.mp hT, ?_⟩, ?_⟩
        · rw [Bool.and_eq_true, Bool.not_eq_true', Bool.not_eq_true']
          refine ⟨by simpa using hsi, ?_⟩
          simp [hne]
        · simpa using he.symm
      | cons d ds' =>
        right
        exact (mem_walkDirs pats out dirs pfx e).mpr ⟨d, ds', f, hT, hw⟩

theorem mem_walkDirs (pats : List Str) (out : Str) (dl : DirList) :
    ∀ (pfx : List Str) (e : Str),
      e ∈ walkDirs pats out pfx dl ↔
        ∃ d ds f, hasFileD dl d ds f = true ∧
          EntryWitness pats out pfx (d :: ds) f e := by
  intro pfx e
  cases dl with
  | nil =>
    simp [walkDirs, hasFileD]
  | cons name sub rest =>
    simp only [walkDirs, List.mem_append]
    constructor
    · rintro (hhead | htail)
      · cases hsi : should_ignore (pfx ++ [name]) pats with
        | true =>
          rw [if_pos hsi] at hhead
          simp at hhead
        | false =>
          rw [if_neg (by simp [hsi])] at hhead
          obtain ⟨ds, f, hT, hw⟩ :=
            (mem_walkTree pats out sub (pfx ++ [name]) e).mp hhead
          refine ⟨name, ds, f, ?_, EntryWitness_cons.mpr ⟨hsi, hw⟩⟩
          simp only [hasFileD]
          simp [hT]
      · obtain ⟨d, ds, f, hD, hw⟩ := (mem_walkDirs pats out rest pfx e).mp htail
        refine ⟨d, ds, f, ?_, hw⟩
        simp only [hasFileD]
        simp [hD]
    · rintro ⟨d, ds, f, hDF, hw⟩
      simp only [hasFileD, Bool.or_eq_true, Bool.and_eq_true, beq_iff_eq] at hDF
      rcases hDF with ⟨heq, hT⟩ | hrest
      · subst heq
        left
        obtain ⟨hsi, hw'⟩ := EntryWitness_cons.mp hw
        rw [if_neg (by simp [hsi])]
        exact (mem_walkTree pats out sub (pfx ++ [name]) e).mpr ⟨ds, f, hT, hw'⟩
      · right
        exact (mem_walkDirs pats out rest pfx e).mpr ⟨d, ds, f, hrest, hw⟩
end

mutual
theorem hasFile_sepFree_T (t : FTree) :
    ∀ (ds : List Str) (f : Str), sepFreeT t = true → hasFileT t ds f = true →
      (∀ x ∈ ds, SEP ∉ x) ∧ SEP ∉ f := by
  intro ds f hsf hhf
  cases t with
  | node dirs files =>
    simp only [sepFreeT, Bool.and_eq_true] at hsf
    obtain ⟨hdirs, hfiles⟩ := hsf
    cases ds with
    | nil =>
      simp only [hasFileT] at hhf
      have hfin : f ∈ files := List.elem_iff.mp hhf
      have hfree := (List.all_eq_true.mp hfiles) f hfin
      rw [Bool.not_eq_true'] at hfree
      refine ⟨by simp, fun hmem => ?_⟩
      have hcontains : f.contains SEP = true := by
        simp only [List.contains]
        exact List.elem_iff.mpr hmem
      rw [hcontains] at hfree
      exact Bool.true_eq_false.mp hfree
    | cons d ds' =>
      simp only [hasFileT] at hhf
      exact hasFile_sepFree_D dirs d ds' f hdirs hhf

theorem hasFile_sepFree_D (dl : DirList) :
    ∀ (d : Str) (ds : List Str) (f : Str), sepFreeD dl = true →
      hasFileD dl d ds f = true →
      (∀ x ∈ d :: ds, SEP ∉ x) ∧ SEP ∉ f := by
  intro d ds f hsf hhf
  cases dl with
  | nil => simp [hasFileD] at hhf
  | cons name sub rest =>
    simp only [sepFreeD, Bool.and_eq_true] at hsf
    obtain ⟨⟨hname, hsub⟩, hrest⟩ := hsf
    simp only [hasFileD, Bool.or_eq_true, Bool.and_eq_true, beq_iff_eq] at hhf
    rcases hhf with ⟨heq, hT⟩ | hD
    · subst heq
      obtain ⟨hds, hf⟩ := hasFile_sepFree_T sub ds f hsub hT
      refine ⟨fun x hx => ?_, hf⟩
      rcases List.mem_cons.mp hx with h | h
      · subst h
        intro hmem
        rw [Bool.not_eq_true'] at hname
        have hcontains : x.contains SEP = true := by
          simp only [List.contains]
          exact List.elem_iff.mpr hmem
        rw [hcontains] at hname
        exact Bool.true_eq_false.mp hname
      · exact hds x h
    · exact hasFile_sepFree_D rest d ds f hrest hD
end

/-- The characterization of the archive content: a separator-free file path
`ds ++ [f]` is written by `bundle_files` exactly when the tree contains it,
no directory on the way down is ignored, the file itself is not ignored, and
the file is not named like the output archive. -/
theorem mem_bundle_iff (tree : FTree) (output_zip : Str)
    (packignore : Option (List Str)) (ds : List Str) (f : Str)
    (htree : sepFreeT tree = true)
    (hds : ∀ x ∈ ds, SEP ∉ x) (hf : SEP ∉ f) :
    joinPath (ds ++ [f]) ∈ bundle_files tree output_zip packignore ↔
      (hasFileT tree ds f = true ∧
       (∀ i, i < ds.length →
         should_ignore (ds.take (i + 1))
           (load_packignore_patterns packignore) = false) ∧
       should_ignore (ds ++ [f]) (load_packignore_patterns packignore) = false ∧
       f ≠ pathBasename output_zip) := by
  unfold bundle_files
  rw [mem_walkTree (load_packignore_patterns packignore)
    (pathBasename output_zip) tree [] (joinPath (ds ++ [f]))]
  constructor
  · rintro ⟨ds', f', hT, he, htake, hsi, hne⟩
    obtain ⟨hds', hf'⟩ := hasFile_sepFree_T tree ds' f' htree hT
    have hsegs : ds ++ [f] = ds' ++ [f'] := by
      apply joinPath_inj (by simp) (by simp)
      · intro x hx
        rcases List.mem_append.mp hx with h | h
        · exact hds x h
        · rw [List.mem_singleton.mp h]; exact hf
      · intro x hx
        rcases List.mem_append.mp hx with h | h
        · exact hds' x h
        · rw [List.mem_singleton.mp h]; exact hf'
      · simpa using he
    obtain ⟨hdd, hff⟩ := List.append_inj' hsegs (by simp)
    have hff' : f = f' := by simpa using hff
    subst hdd
    subst hff'
    exact ⟨hT, by simpa using htake, by simpa using hsi, hne⟩
  · rintro ⟨hT, htake, hsi, hne⟩
    exact ⟨ds, f, hT, by simp, by simpa using htake, by simpa using hsi, hne⟩

/-! ### Lemmas about the pattern loader -/

theorem loadLoop_eq (lines : List Str) :
    ∀ acc, loadLoop lines acc =
      acc ++ (lines.map strip).filter
        (fun l => !l.isEmpty && !startsWithHash l) := by
  induction lines with
  | nil => intro acc; simp [loadLoop]
  | cons line rest ih =>
    intro acc
    simp only [loadLoop, List.map_cons, List.filter_cons]
    cases hc : (!(strip line).isEmpty && !startsWithHash (strip line)) with
    | true =>
      rw [if_pos rfl, ih (acc ++ [strip line])]
      simp
    | false =>
      rw [if_neg Bool.false_ne_true, ih acc]
      simp

theorem load_packignore_eq (lines : List Str) :
    load_packignore_patterns (some lines) =
      (lines.map strip).filter (fun l => !l.isEmpty && !startsWithHash l) := by
  simpa using loadLoop_eq lines []

/-! ### The claims -/

/-- C10: for every source tree and pattern list, a file under the root (at
segment path `ds ++ [f]`) is written into the archive by `bundle_files` if
and only if `should_ignore` is false for the file itself, `should_ignore` is
false for every proper ancestor directory strictly below the root (otherwise
traversal prunes that directory), and the file's basename differs from the
output archive's basename. -/
theorem C10_bundle_membership (tree : FTree) (output_zip : Str)
    (packignore : Option (List Str)) (ds : List Str) (f : Str)
    (htree : sepFreeT tree = true)
    (hds : ∀ x ∈ ds, SEP ∉ x) (hf : SEP ∉ f)
    (hfile : hasFileT tree ds f = true) :
    joinPath (ds ++ [f]) ∈ bundle_files tree output_zip packignore ↔
      ((∀ i, i < ds.length →
         should_ignore (ds.take (i + 1))
           (load_packignore_patterns packignore) = false) ∧
       should_ignore (ds ++ [f]) (load_packignore_patterns packignore) = false ∧
       f ≠ pathBasename output_zip) := by
  rw [mem_bundle_iff tree output_zip packignore ds f htree hds hf]
  constructor
  · rintro ⟨-, h⟩
    exact h
  · intro h
    exact ⟨hfile, h⟩

/-- Closed instance of C10: the spec's end-to-end tree with pattern `skip/`;
the file `keep/c.txt` is in the archive and the characterization's right-hand
side holds for it. -/
theorem C10_bundle_membership_witness :
    (sepFreeT
      (.node
        (.cons "skip".data (.node .nil ["b.txt".data])
          (.cons "keep".data (.node .nil ["c.txt".data]) .nil))
        ["a.txt".data]) = true) ∧
    (∀ x ∈ (["keep".data] : List Str), SEP ∉ x) ∧
    SEP ∉ "c.txt".data ∧
    (hasFileT
      (.node
        (.cons "skip".data (.node .nil ["b.txt".data])
          (.cons "keep".data (.node .nil ["c.txt".data]) .nil))
        ["a.txt".data]) ["keep".data] "c.txt".data = true) ∧
    (joinPath (["keep".data] ++ ["c.txt".data]) ∈
      bundle_files
        (.node
          (.cons "skip".data (.node .nil ["b.txt".data])
            (.cons "keep".data (.node .nil ["c.txt".data]) .nil))
          ["a.txt".data])
        "pack.zip".data (some ["skip/".data]) ↔
      ((∀ i, i < (["keep".data] : List Str).length →
         should_ignore ((["keep".data] : List Str).take (i + 1))
           (load_packignore_patterns (some ["skip/".data])) = false) ∧
       should_ignore (["keep".data] ++ ["c.txt".data])
         (load_packignore_patterns (some ["skip/".data])) = false ∧
       "c.txt".data ≠ pathBasename "pack.zip".data)) :=
  ⟨by decide, by decide, by decide, by decide,
   C10_bundle_membership _ _ _ _ _ (by decide) (by decide) (by decide)
     (by decide)⟩

/-- C4: the archive produced by `bundle_files` never contains an entry whose
relative-path key equals the output archive's filename; in particular a file
named like the output archive at the root of the bundled tree is never
written. -/
theorem C4_no_self_entry (tree : FTree) (output_zip : Str)
    (packignore : Option (List Str)) :
    ∀ e ∈ bundle_files tree output_zip packignore,
      e ≠ pathBasename output_zip := by
  intro e he
  unfold bundle_files at he
  rw [mem_walkTree (load_packignore_patterns packignore)
    (pathBasename output_zip) tree [] e] at he
  obtain ⟨ds, f, -, he, -, -, hne⟩ := he
  subst he
  cases ds with
  | nil => simpa using hne
  | cons d ds' =>
    intro hcontra
    have hsep : SEP ∈ joinPath ([] ++ d :: ds' ++ [f]) := by
      cases ds' with
      | nil => exact sep_mem_joinPath d f []
      | cons y r =>
        simpa using sep_mem_joinPath d y (r ++ [f])
    rw [hcontra] at hsep
    exact sep_not_mem_pathBasename output_zip hsep

/-- Closed instance of C4: a concrete bundle entry differs from the output
archive's filename. -/
theorem C4_no_self_entry_witness :
    "a.txt".data ∈
      bundle_files (.node .nil ["a.txt".data, "pack.zip".data])
        "pack.zip".data none ∧
    "a.txt".data ≠ pathBasename "pack.zip".data :=
  ⟨by decide,
   C4_no_self_entry (.node .nil ["a.txt".data, "pack.zip".data])
     "pack.zip".data none "a.txt".data (by decide)⟩

/-- C3: a pattern without a trailing separator ignores, at any directory
depth, every file whose basename matches it under shell-glob semantics. -/
theorem C3_basename_match_ignored (patterns : List Str) {pat : Str}
    (hmem : pat ∈ patterns) (hsep : endsWithSep pat = false)
    (ds : List Str) (f : Str) (hm : fnmatch f pat = true) :
    should_ignore (ds ++ [f]) patterns = true :=
  should_ignore_of_basename hmem hsep ds f hm

/-- Closed instance of C3: `*.tmp` ignores `a/b/c.tmp`. -/
theorem C3_basename_match_ignored_witness :
    "*.tmp".data ∈ ["*.tmp".data] ∧
    endsWithSep "*.tmp".data = false ∧
    fnmatch "c.tmp".data "*.tmp".data = true ∧
    should_ignore (["a".data, "b".data] ++ ["c.tmp".data])
      ["*.tmp".data] = true :=
  ⟨by decide, by decide, by decide,
   @C3_basename_match_ignored ["*.tmp".data] "*.tmp".data (by decide) (by decide)
     ["a".data, "b".data] "c.tmp".data (by decide)⟩

/-- C2: a directory pattern `p + '/'` with a literal name `p` makes
`should_ignore` true for every file anywhere under the root's child directory
`p`, and such a file is excluded from the archive. -/
theorem C2_dirpat_ignores_child_subtree (tree : FTree) (output_zip : Str)
    (packignore : Option (List Str)) (htree : sepFreeT tree = true)
    {p : Str} (hp : plainName p)
    (hmem : (p ++ [SEP]) ∈ load_packignore_patterns packignore)
    (mid : List Str) (f : Str)
    (hsegs : ∀ x ∈ p :: mid, SEP ∉ x) (hsepf : SEP ∉ f) :
    should_ignore (p :: (mid ++ [f]))
      (load_packignore_patterns packignore) = true ∧
    joinPath ((p :: mid) ++ [f]) ∉
      bundle_files tree output_zip packignore := by
  have hsi := should_ignore_dirpat_top hp.2 hmem
    (show mid ++ [f] ≠ [] by simp)
  refine ⟨hsi, fun hmemb => ?_⟩
  rw [mem_bundle_iff tree output_zip packignore (p :: mid) f htree hsegs
    hsepf] at hmemb
  obtain ⟨-, -, hfalse, -⟩ := hmemb
  rw [show (p :: mid) ++ [f] = p :: (mid ++ [f]) from rfl] at hfalse
  rw [hsi] at hfalse
  exact Bool.true_eq_false.mp hfalse

/-- Closed instance of C2: pattern `p/` ignores the file `p/sub/b.txt` and
keeps it out of the archive. -/
theorem C2_dirpat_ignores_child_subtree_witness :
    (sepFreeT
      (.node
        (.cons "p".data
          (.node (.cons "sub".data (.node .nil ["b.txt".data]) .nil) [])
          .nil)
        ["a.txt".data]) = true) ∧
    plainName "p".data ∧
    ("p".data ++ [SEP]) ∈ load_packignore_patterns (some ["p/".data]) ∧
    (∀ x ∈ ["p".data, "sub".data], SEP ∉ x) ∧
    SEP ∉ "b.txt".data ∧
    should_ignore ("p".data :: (["sub".data] ++ ["b.txt".data]))
      (load_packignore_patterns (some ["p/".data])) = true ∧
    joinPath (("p".data :: ["sub".data]) ++ ["b.txt".data]) ∉
      bundle_files
        (.node
          (.cons "p".data
            (.node (.cons "sub".data (.node .nil ["b.txt".data]) .nil) [])
            .nil)
          ["a.txt".data])
        "pack.zip".data (some ["p/".data]) := by
  refine ⟨by decide, ⟨by decide, by decide⟩, by decide, by decide, by decide,
    ?_, ?_⟩
  · exact (@C2_dirpat_ignores_child_subtree
      (.node
        (.cons "p".data
          (.node (.cons "sub".data (.node .nil ["b.txt".data]) .nil) [])
          .nil)
        ["a.txt".data])
      "pack.zip".data (some ["p/".data]) (by decide) "p".data
      ⟨by decide, by decide⟩ (by decide) ["sub".data] "b.txt".data
      (by decide) (by decide)).1
  · exact (@C2_dirpat_ignores_child_subtree
      (.node
        (.cons "p".data
          (.node (.cons "sub".data (.node .nil ["b.txt".data]) .nil) [])
          .nil)
        ["a.txt".data])
      "pack.zip".data (some ["p/".data]) (by decide) "p".data
      ⟨by decide, by decide⟩ (by decide) ["sub".data] "b.txt".data
      (by decide) (by decide)).2

/-- Counterexample to C1 as stated: the pattern list `["p/"]` contains a
pattern with a trailing separator that matches the name `p` of the directory
`a/p` strictly below the root (both as `p/` against `p/` and, with the
separator stripped, as `p` against `p`), yet the file `a/p/x` beneath that
directory is written into the archive. -/
theorem C1_counterexample :
    fnmatch ("p".data ++ [SEP]) "p/".data = true ∧
    fnmatch "p".data (rstripSep "p/".data) = true ∧
    "p/".data ∈ load_packignore_patterns (some ["p/".data]) ∧
    hasFileT
      (.node
        (.cons "a".data
          (.node (.cons "p".data (.node .nil ["x".data]) .nil) [])
          .nil)
        [])
      ["a".data, "p".data] "x".data = true ∧
    joinPath ["a".data, "p".data, "x".data] ∈
      bundle_files
        (.node
          (.cons "a".data
            (.node (.cons "p".data (.node .nil ["x".data]) .nil) [])
            .nil)
          [])
        "pack.zip".data (some ["p/".data]) := by
  decide

/-- C1 amended: a pattern without a trailing separator that glob-matches the
basename of a directory excludes every file beneath that directory, at any
depth; a pattern with a trailing separator does so when the directory is a
direct child of the root and the pattern matches the directory name with the
separator appended.  (As stated the claim also promised the trailing-
separator case for directories nested more deeply, which the code does not
honour — see the counterexample.) -/
theorem C1_amended_ancestor_dir_excludes (tree : FTree) (output_zip : Str)
    (packignore : Option (List Str)) (htree : sepFreeT tree = true)
    (dpath : List Str) (d : Str) {pat : Str}
    (hpat : pat ∈ load_packignore_patterns packignore)
    (hmatch :
      (endsWithSep pat = false ∧ fnmatch d pat = true) ∨
      (endsWithSep pat = true ∧ dpath = [] ∧
        fnmatch (d ++ [SEP]) pat = true))
    (rest : List Str) (f : Str)
    (hsegs : ∀ x ∈ dpath ++ [d] ++ rest, SEP ∉ x) (hsepf : SEP ∉ f) :
    joinPath ((dpath ++ [d] ++ rest) ++ [f]) ∉
      bundle_files tree output_zip packignore := by
  intro hmem
  rw [mem_bundle_iff tree output_zip packignore (dpath ++ [d] ++ rest) f
    htree hsegs hsepf] at hmem
  obtain ⟨-, htake, -, -⟩ := hmem
  have hidx : dpath.length < (dpath ++ [d] ++ rest).length := by
    simp
  have htk : (dpath ++ [d] ++ rest).take (dpath.length + 1) =
      dpath ++ [d] := by
    rw [List.append_assoc, List.take_append]
    simp
  have hfalse := htake dpath.length hidx
  rw [htk] at hfalse
  rcases hmatch with ⟨hsep, hm⟩ | ⟨hsep, hnil, hm⟩
  · rw [should_ignore_of_basename hpat hsep dpath d hm] at hfalse
    exact Bool.true_eq_false.mp hfalse
  · subst hnil
    rw [show ([] : List Str) ++ [d] = [d] from rfl] at hfalse
    rw [should_ignore_child_dirpat hpat hsep d hm] at hfalse
    exact Bool.true_eq_false.mp hfalse

/-- Closed instance of the amended C1: the pattern `p` (no trailing
separator) matches the name of the nested directory `a/p` and keeps the file
`a/p/x` out of the archive. -/
theorem C1_amended_ancestor_dir_excludes_witness :
    (sepFreeT
      (.node
        (.cons "a".data
          (.node (.cons "p".data (.node .nil ["x".data]) .nil) [])
          .nil)
        []) = true) ∧
    "p".data ∈ load_packignore_patterns (some ["p".data]) ∧
    endsWithSep "p".data = false ∧
    fnmatch "p".data "p".data = true ∧
    joinPath ((["a".data] ++ ["p".data] ++ []) ++ ["x".data]) ∉
      bundle_files
        (.node
          (.cons "a".data
            (.node (.cons "p".data (.node .nil ["x".data]) .nil) [])
            .nil)
          [])
        "pack.zip".data (some ["p".data]) :=
  ⟨by decide, by decide, by decide, by decide,
   @C1_amended_ancestor_dir_excludes
     (.node
       (.cons "a".data
         (.node (.cons "p".data (.node .nil ["x".data]) .nil) [])
         .nil)
       [])
     "pack.zip".data (some ["p".data]) (by decide) ["a".data] "p".data
     "p".data (by decide) (Or.inl ⟨by decide, by decide⟩) [] "x".data
     (by decide) (by decide)⟩

/-- Counterexample to C5 as stated: with an ignore-file consisting of a
single comment line the pattern list is empty, and the file `keep/pack.zip`
is a file under the root that is not the output archive file itself (its
relative path differs from the output filename sitting at the root), yet the
archive contains no entry for it — the code filters by basename equality
with the output filename at every depth. -/
theorem C5_counterexample :
    load_packignore_patterns (some ["# only a comment".data]) = [] ∧
    hasFileT
      (.node (.cons "keep".data (.node .nil ["pack.zip".data]) .nil)
        ["a.txt".data])
      ["keep".data] "pack.zip".data = true ∧
    joinPath (["keep".data] ++ ["pack.zip".data]) ≠
      pathBasename "pack.zip".data ∧
    joinPath (["keep".data] ++ ["pack.zip".data]) ∉
      bundle_files
        (.node (.cons "keep".data (.node .nil ["pack.zip".data]) .nil)
          ["a.txt".data])
        "pack.zip".data (some ["# only a comment".data]) := by
  decide

/-- C5 amended: an ignore-file whose every line strips to blank or to a
comment yields the empty pattern list, and the archive then contains an
entry for every file under the root whose basename differs from the output
archive's filename (the output file itself is excluded, but so is any other
file named like it, at any depth). -/
theorem C5_comment_only_ignore_file (lines : List Str)
    (hlines : ∀ l ∈ lines, strip l = [] ∨ startsWithHash (strip l) = true)
    (tree : FTree) (output_zip : Str) (ds : List Str) (f : Str)
    (hT : hasFileT tree ds f = true)
    (hne : f ≠ pathBasename output_zip) :
    load_packignore_patterns (some lines) = [] ∧
    joinPath (ds ++ [f]) ∈ bundle_files tree output_zip (some lines) := by
  have hload : load_packignore_patterns (some lines) = [] := by
    rw [load_packignore_eq]
    apply List.filter_eq_nil_iff.mpr
    intro l hl
    obtain ⟨line, hline, rfl⟩ := List.mem_map.mp hl
    rcases hlines line hline with h | h
    · simp [h]
    · simp [h]
  refine ⟨hload, ?_⟩
  unfold bundle_files
  rw [hload]
  rw [mem_walkTree [] (pathBasename output_zip) tree [] (joinPath (ds ++ [f]))]
  refine ⟨ds, f, hT, by simp, ?_, ?_, hne⟩
  · intro i hi
    exact should_ignore_nil_pats _
  · exact should_ignore_nil_pats _

/-- Closed instance of C5: an ignore-file of one comment line and two blank
lines loads no pattern and the archive keeps `keep/c.txt`. -/
theorem C5_comment_only_ignore_file_witness :
    (∀ l ∈ ["# note".data, "   ".data, "".data],
      strip l = [] ∨ startsWithHash (strip l) = true) ∧
    (hasFileT (.node (.cons "keep".data (.node .nil ["c.txt".data]) .nil)
      ["a.txt".data]) ["keep".data] "c.txt".data = true) ∧
    "c.txt".data ≠ pathBasename "pack.zip".data ∧
    load_packignore_patterns
      (some ["# note".data, "   ".data, "".data]) = [] ∧
    joinPath (["keep".data] ++ ["c.txt".data]) ∈
      bundle_files
        (.node (.cons "keep".data (.node .nil ["c.txt".data]) .nil)
          ["a.txt".data])
        "pack.zip".data (some ["# note".data, "   ".data, "".data]) := by
  refine ⟨by decide, by decide, by decide, ?_, ?_⟩
  · exact (C5_comment_only_ignore_file
      ["# note".data, "   ".data, "".data] (by decide)
      (.node (.cons "keep".data (.node .nil ["c.txt".data]) .nil)
        ["a.txt".data])
      "pack.zip".data ["keep".data] "c.txt".data (by decide) (by decide)).1
  · exact (C5_comment_only_ignore_file
      ["# note".data, "   ".data, "".data] (by decide)
      (.node (.cons "keep".data (.node .nil ["c.txt".data]) .nil)
        ["a.txt".data])
      "pack.zip".data ["keep".data] "c.txt".data (by decide) (by decide)).2

/-- C6: a missing ignore-file loads the empty pattern list without error and
the bundler behaves exactly as with an empty pattern list; an existing
ignore-file loads exactly its stripped non-empty non-comment lines in file
order. -/
theorem C6_loader_contract :
    load_packignore_patterns none = [] ∧
    (∀ (tree : FTree) (output_zip : Str),
      bundle_files tree output_zip none =
        bundle_files tree output_zip (some [])) ∧
    (∀ lines, load_packignore_patterns (some lines) =
      (lines.map strip).filter (fun l => !l.isEmpty && !startsWithHash l)) :=
  ⟨rfl, fun _ _ => rfl, load_packignore_eq⟩

/-- Counterexample to C7 as stated: `oak_log.json` lacks both a `frame`
suffix and a `planks` suffix after removing the `.json` extension, yet
`extract_base_name` does not append a `planks` suffix to it (the `_log`
branch keeps it unchanged). -/
theorem C7_counterexample :
    "_frame".data.isSuffixOf
      (replaceAll ".json".data [] "oak_log.json".data) = false ∧
    "_planks".data.isSuffixOf
      (replaceAll ".json".data [] "oak_log.json".data) = false ∧
    extract_base_name "oak_log.json".data ≠
      replaceAll ".json".data [] "oak_log.json".data ++ "_planks".data := by
  decide

/-- C7 amended: the generator derives the output name by replacing every
`_frame` occurrence with `_planks`; a name without `_frame` is kept unchanged
when it ends in `_log` or already ends in `_planks`, and gets `_planks`
appended otherwise (all applied to the name with its `.json` occurrences
removed). -/
theorem C7_amended_rename_rule (filename : Str) :
    extract_base_name filename = extract_base_name_amended filename := by
  cases h1 : containsSub (replaceAll ".json".data [] filename)
      "_frame".data with
  | true => simp [extract_base_name, extract_base_name_amended, h1]
  | false =>
    cases h2 : "_log".data.isSuffixOf
        (replaceAll ".json".data [] filename) with
    | true => simp [extract_base_name, extract_base_name_amended, h1, h2]
    | false =>
      cases h3 : "_planks".data.isSuffixOf
          (replaceAll ".json".data [] filename) with
      | true => simp [extract_base_name, extract_base_name_amended, h1, h2, h3]
      | false =>
        simp [extract_base_name, extract_base_name_amended, h1, h2, h3]

/-- C8: `create_chiseling_recipe` returns exactly the document with the fixed
type string, `overwrite = false`, and one `item` entry per variant, in input
order and with the input's length. -/
theorem C8_recipe_shape (variants : List Json) :
    Json.getField (create_chiseling_recipe variants) "type".data =
      some (.str "rechiseled:chiseling".data) ∧
    Json.getField (create_chiseling_recipe variants) "overwrite".data =
      some (.bool false) ∧
    Json.getField (create_chiseling_recipe variants) "entries".data =
      some (.arr (variants.map fun v => .obj [("item".data, v)])) ∧
    (variants.map fun v => Json.obj [("item".data, v)]).length =
      variants.length :=
  ⟨rfl, rfl, rfl, by simp⟩

/-- C9: a network or parse failure on one download makes
`download_file_content` return `None`, `process_chisel_file` then writes
nothing for that file and the run's writes are exactly the concatenation over
the listed files (so the loop continues with the remaining files); a failure
of the initial listing makes `get_github_files` return the empty list and the
run performs no per-file processing at all. -/
theorem C9_generator_error_handling (bad : FetchResult)
    (hbad : bad = .requestError ∨ bad = .jsonDecodeError) :
    download_file_content bad = none ∧
    (∀ fi : FileInfo, process_chisel_file fi bad = []) ∧
    get_github_files none = [] ∧
    (∀ fetch, generator_main none fetch = []) ∧
    (∀ files fetch,
      generator_main (some files) fetch =
        (get_github_files (some files)).flatMap
          (fun fi => process_chisel_file fi (fetch fi.download_url))) ∧
    (∀ (pre post : List FileInfo) (g : FileInfo) (fetch : Str → FetchResult),
      fetch g.download_url = bad →
        (pre ++ g :: post).flatMap
          (fun fi => process_chisel_file fi (fetch fi.download_url)) =
        pre.flatMap (fun fi => process_chisel_file fi (fetch fi.download_url))
          ++
        post.flatMap
          (fun fi => process_chisel_file fi (fetch fi.download_url))) := by
  have hdl : download_file_content bad = none := by
    rcases hbad with rfl | rfl <;> rfl
  have hpr : ∀ fi : FileInfo, process_chisel_file fi bad = [] := by
    intro fi
    unfold process_chisel_file
    rw [hdl]
  refine ⟨hdl, hpr, rfl, fun fetch => rfl, ?_, ?_⟩
  · intro files fetch
    simp only [generator_main]
    cases h : (get_github_files (some files)).isEmpty with
    | true =>
      rw [if_pos rfl, List.isEmpty_iff.mp h]
      rfl
    | false =>
      rw [if_neg Bool.false_ne_true]
  · intro pre post g fetch hfg
    rw [List.flatMap_append, List.flatMap_cons, hfg, hpr g]
    simp

/-- Closed instance of C9: a failing download produces no content and no
write, and a failed listing produces an empty run. -/
theorem C9_generator_error_handling_witness :
    download_file_content .requestError = none ∧
    process_chisel_file
      ⟨"acacia_frame.json".data, "file".data, "u".data⟩ .requestError = [] ∧
    get_github_files none = [] ∧
    generator_main none (fun _ => .requestError) = [] := by
  have h := C9_generator_error_handling .requestError (Or.inl rfl)
  exact ⟨h.1, h.2.1 _, h.2.2.1, h.2.2.2.1 _⟩

/-! ### Evaluation checks of the embedding -/

example : fnmatch "a.txt".data "*.txt".data = true := by decide

example : fnmatch "x/y.txt".data "*.txt".data = true := by decide

example : fnmatch "a.txt".data "?.txt".data = true := by decide

example : fnmatch "ab.txt".data "?.txt".data = false := by decide

example : fnmatch "b".data "[a-c]".data = true := by decide

example : fnmatch "d".data "[a-c]".data = false := by decide

example : fnmatch "d".data "[!a-c]".data = true := by decide

example : fnmatch "[!]".data "[!]".data = true := by decide

example : fnmatch "z".data "[z-a]".data = false := by decide

example : splitSep "a/p".data = ["a".data, "p".data] := by decide

example : pathBasename "dist/pack.zip".data = "pack.zip".data := by decide

example : pathBasename "pack.zip".data = "pack.zip".data := by decide

example : should_ignore ["skip".data, "b.txt".data] ["skip/".data] = true := by
  decide

example : should_ignore ["a".data, "p".data] ["p/".data] = false := by decide

example : should_ignore ["a".data, "p".data] ["p".data] = true := by decide

example : should_ignore ["a".data, "b.tmp".data] ["*.tmp".data] = true := by
  decide

example :
    bundle_files
      (.node
        (.cons "skip".data (.node .nil ["b.txt".data])
          (.cons "keep".data (.node .nil ["c.txt".data]) .nil))
        ["a.txt".data])
      "pack.zip".data (some ["skip/".data]) =
      ["a.txt".data, "keep/c.txt".data] := by decide

example : replaceAll ".json".data [] "acacia_frame.json".data =
    "acacia_frame".data := by decide

example : replaceAll "_frame".data "_planks".data "acacia_frame".data =
    "acacia_planks".data := by decide

example : extract_base_name "acacia_frame.json".data = "acacia_planks".data := by
  decide

example : extract_base_name "oak_log.json".data = "oak_log".data := by decide

example : extract_base_name "stone.json".data = "stone_planks".data := by decide

end Rechiseled
